import Mathlib

/-!
Shallow embedding of the core of `bevy_imposter` (octahedral direction
sampling, the imposter asset codec, and the per-frame bake step), together
with theorems settling the specification claims.

Modelling conventions:
* Rust `u32` values are modelled as `ℕ`; where wrap-around matters it is
  made explicit (`u32sub1`).
* `f32` arithmetic on the small rational values appearing here is modelled
  as exact arithmetic over `ℚ` (and `ℝ` where `sin`/`cos`/`sqrt` appear).
  An `f32` division by zero produces a non-finite value (`NaN`/`±∞`), and
  every subsequent operation (including `Vec3::normalize`) keeps the result
  non-finite; a non-finite outcome is modelled as `none`.
* Byte strings are `List ℕ` with each entry `< 256`.
-/

namespace BevyImposter

/-- `GridMode` from `src/oct_coords.rs`. -/
inductive GridMode
  | Spherical
  | Hemispherical
  | Horizontal
deriving DecidableEq, Repr

/-- `GRID_MASK` from `src/oct_coords.rs`. -/
def GRID_MASK : ℕ := 3

/-- `GridMode::as_flags` from `src/oct_coords.rs`. -/
def GridMode.as_flags : GridMode → ℕ
  | .Spherical => 0
  | .Hemispherical => 1
  | .Horizontal => 2

/-- `GridMode::from_flags` from `src/oct_coords.rs`.  The `unreachable!`
panic arm is modelled as `none`. -/
def GridMode.from_flags (flags : ℕ) : Option GridMode :=
  match flags &&& GRID_MASK with
  | 0 => some .Spherical
  | 1 => some .Hemispherical
  | 2 => some .Horizontal
  | _ => none

/-- Rust `u32` subtraction `n - 1` (wrapping at zero), as used in
`normal_from_grid` for `grid_size - 1`. -/
def u32sub1 (n : ℕ) : ℕ := (n + 4294967295) % 4294967296

/-- `f32` division, modelling a zero divisor as a non-finite result. -/
def qdiv (a b : ℚ) : Option ℚ := if b = 0 then none else some (a / b)

/-- Rust `f32::signum`: `1.0` for non-negative values (including `+0.0`),
`-1.0` for negative values. -/
def fsignum (q : ℚ) : ℚ := if q < 0 then -1 else 1

/-- Rust `f32::abs`, written with an explicit branch so that the kernel can
evaluate it on literals. -/
def fabs (q : ℚ) : ℚ := if q < 0 then -q else q

/-- The pre-normalization vector of the `GridMode::Spherical` arm of
`normal_from_grid` (`src/oct_coords.rs`), computed exactly over `ℚ`. -/
def sphericalPre (px py n : ℕ) : Option (ℚ × ℚ × ℚ) :=
  (qdiv px (u32sub1 n)).bind fun u =>
  (qdiv py (u32sub1 n)).bind fun v =>
    let x := u * 2 - 1
    let z := v * 2 - 1
    let y := 1 - fabs x - fabs z
    if y < 0 then
      some (fsignum x * (1 - fabs z), y, fsignum z * (1 - fabs x))
    else
      some (x, y, z)

/-- The pre-normalization vector of the `GridMode::Hemispherical` arm of
`normal_from_grid` (`src/oct_coords.rs`). -/
def hemisphericalPre (px py n : ℕ) : Option (ℚ × ℚ × ℚ) :=
  (qdiv px (u32sub1 n)).bind fun u =>
  (qdiv py (u32sub1 n)).bind fun v =>
    let x := u - v
    let z := -1 + u + v
    some (x, 1 - fabs x - fabs z, z)

/-- The pre-normalization vector of the `GridMode::Horizontal` arm of
`normal_from_grid` (`src/oct_coords.rs`): `angle.sin_cos()` gives
`(x, z) = (sin angle, cos angle)` and `y = 0`.  A zero `grid_size` would
divide `0.0 / 0.0` (NaN), modelled as `none`. -/
noncomputable def horizontalPre (px py n : ℕ) : Option (ℝ × ℝ × ℝ) :=
  if n * n = 0 then none
  else
    some (Real.sin (Real.pi * 2 * (py * n + px) / (n * n)), 0,
      Real.cos (Real.pi * 2 * (py * n + px) / (n * n)))

/-- Euclidean length of a 3-vector, as `Vec3::length`. -/
noncomputable def vnorm (v : ℝ × ℝ × ℝ) : ℝ :=
  Real.sqrt (v.1 ^ 2 + v.2.1 ^ 2 + v.2.2 ^ 2)

/-- `Vec3::normalize` (`self * self.length().recip()`): a zero-length input
yields NaN components, modelled as `none`. -/
noncomputable def vnormalize (v : ℝ × ℝ × ℝ) : Option (ℝ × ℝ × ℝ) :=
  open Classical in
  if vnorm v = 0 then none
  else some (v.1 / vnorm v, v.2.1 / vnorm v, v.2.2 / vnorm v)

/-- Cast a rational 3-vector to `ℝ`. -/
def ratVec (v : ℚ × ℚ × ℚ) : ℝ × ℝ × ℝ := ((v.1 : ℝ), (v.2.1 : ℝ), (v.2.2 : ℝ))

/-- `normal_from_grid` from `src/oct_coords.rs`, restricted to the returned
direction (the accompanying `up` vector is not needed by any claim).
`none` models a non-finite (`NaN`) result. -/
noncomputable def normal_from_grid (pos : ℕ × ℕ) (mode : GridMode) (n : ℕ) :
    Option (ℝ × ℝ × ℝ) :=
  match mode with
  | .Spherical => (sphericalPre pos.1 pos.2 n).bind fun v => vnormalize (ratVec v)
  | .Hemispherical => (hemisphericalPre pos.1 pos.2 n).bind fun v => vnormalize (ratVec v)
  | .Horizontal => (horizontalPre pos.1 pos.2 n).bind vnormalize

end BevyImposter

namespace BevyImposter

/-- C10: `GridMode::from_flags` is partial at the public interface: every
`u32` whose low two bits are `3` reaches the `unreachable!` arm (modelled
as `none`); low bits `0`, `1`, `2` give `Spherical`, `Hemispherical`,
`Horizontal`; and `from_flags (as_flags m) = some m` for every mode. -/
theorem c10_from_flags_mask3 :
    (∀ f : ℕ, f < 4294967296 →
      (f &&& GRID_MASK = 3 → GridMode.from_flags f = none) ∧
      (f &&& GRID_MASK = 0 → GridMode.from_flags f = some .Spherical) ∧
      (f &&& GRID_MASK = 1 → GridMode.from_flags f = some .Hemispherical) ∧
      (f &&& GRID_MASK = 2 → GridMode.from_flags f = some .Horizontal)) ∧
    (∀ m : GridMode, GridMode.from_flags m.as_flags = some m) := by
  refine ⟨fun f _ => ⟨?_, ?_, ?_, ?_⟩, fun m => ?_⟩
  · intro h; simp [GridMode.from_flags, h]
  · intro h; simp [GridMode.from_flags, h]
  · intro h; simp [GridMode.from_flags, h]
  · intro h; simp [GridMode.from_flags, h]
  · cases m <;> rfl

/-- Witness for C10 at concrete flag values. -/
theorem c10_from_flags_mask3_witness :
    GridMode.from_flags 7 = none ∧
    GridMode.from_flags 4 = some .Spherical ∧
    GridMode.from_flags 1 = some .Hemispherical ∧
    GridMode.from_flags 6 = some .Horizontal :=
  ⟨(c10_from_flags_mask3.1 7 (by norm_num)).1 (by decide),
   (c10_from_flags_mask3.1 4 (by norm_num)).2.1 (by decide),
   (c10_from_flags_mask3.1 1 (by norm_num)).2.2.1 (by decide),
   (c10_from_flags_mask3.1 6 (by norm_num)).2.2.2 (by decide)⟩

/-- C1: evaluation of the code at the failing input.  For `grid_size = 1`
in `Spherical` mode the sole cell `(0, 0)` computes
`uv = (0, 0) / ((1 - 1) as f32) = 0.0 / 0.0 = NaN`, so the returned
direction is NaN (modelled `none`), not a unit vector — there is no
special case for `grid_size = 1` anywhere in the code. -/
theorem c1_grid1_spherical_nan :
    normal_from_grid (0, 0) GridMode.Spherical 1 = none := by
  have h : sphericalPre 0 0 1 = none := by decide
  simp [normal_from_grid, h]

end BevyImposter

namespace BevyImposter

/-- For `u32` values `1 ≤ n < 2^32`, the wrapping subtraction is `n - 1`. -/
theorem u32sub1_eq {n : ℕ} (h1 : 1 ≤ n) (h2 : n < 4294967296) :
    u32sub1 n = n - 1 := by
  unfold u32sub1; omega

/-- Normalizing `(0, -1, 0)` returns `(0, -1, 0)`. -/
theorem vnormalize_south : vnormalize ((0 : ℝ), -1, 0) = some (0, -1, 0) := by
  have h : vnorm ((0 : ℝ), -1, 0) = 1 := by
    unfold vnorm; norm_num
  unfold vnormalize
  rw [h]
  norm_num

/-- Normalizing a vector with positive `y` gives a vector with positive `y`. -/
theorem vnormalize_pos_y (a b c : ℝ) (hb : 0 < b) :
    ∃ w, vnormalize (a, b, c) = some w ∧ 0 < w.2.1 := by
  have hnorm : 0 < vnorm (a, b, c) := by
    unfold vnorm
    apply Real.sqrt_pos.mpr
    nlinarith [sq_nonneg a, sq_nonneg c, pow_pos hb 2]
  refine ⟨(a / vnorm (a, b, c), b / vnorm (a, b, c), c / vnorm (a, b, c)), ?_, ?_⟩
  · unfold vnormalize
    rw [if_neg (ne_of_gt hnorm)]
  · exact div_pos hb hnorm

/-- The corner cell `(0, 0)` of a spherical grid with `2 ≤ n` folds to the
south pole `(0, -1, 0)`. -/
theorem sphericalPre_corner {n : ℕ} (h1 : 2 ≤ n) (h2 : n < 4294967296) :
    sphericalPre 0 0 n = some (0, -1, 0) := by
  have hd : u32sub1 n = n - 1 := u32sub1_eq (by omega) h2
  have hne : ((n - 1 : ℕ) : ℚ) ≠ 0 := by
    exact_mod_cast (by omega : n - 1 ≠ 0)
  unfold sphericalPre qdiv
  rw [hd, if_neg hne]
  have hx : ((0 : ℕ) : ℚ) / ((n - 1 : ℕ) : ℚ) * 2 - 1 = -1 := by norm_num
  simp only [hx]
  norm_num [fsignum, fabs]

end BevyImposter

namespace BevyImposter

/-- `fabs` agrees with the mathematical absolute value. -/
theorem fabs_eq_abs (q : ℚ) : fabs q = |q| := by
  by_cases h : q < 0
  · rw [fabs, if_pos h, abs_of_neg h]
  · rw [fabs, if_neg h, abs_of_nonneg (not_lt.mp h)]

/-- The center cell `(n/2, n/2)` of a spherical grid with `3 ≤ n` yields a
pre-normalization vector with strictly positive `y`. -/
theorem sphericalPre_mid {n : ℕ} (h3 : 3 ≤ n) (h2 : n < 4294967296) :
    ∃ v : ℚ × ℚ × ℚ, sphericalPre (n / 2) (n / 2) n = some v ∧ 0 < v.2.1 := by
  have hd : u32sub1 n = n - 1 := u32sub1_eq (by omega) h2
  have hne : ((n - 1 : ℕ) : ℚ) ≠ 0 := by exact_mod_cast (by omega : n - 1 ≠ 0)
  have hdpos : (0 : ℚ) < ((n - 1 : ℕ) : ℚ) := by
    exact_mod_cast (by omega : 0 < n - 1)
  have hdc : ((n - 1 : ℕ) : ℚ) = (n : ℚ) - 1 := by
    push_cast [Nat.cast_sub (by omega : 1 ≤ n)]
    ring
  have hxabs : |((n / 2 : ℕ) : ℚ) / ((n - 1 : ℕ) : ℚ) * 2 - 1| < 1 / 2 := by
    rcases Nat.even_or_odd n with he | ho
    · obtain ⟨k, hk⟩ := he
      have h4n : 4 ≤ n := by omega
      have hN : n / 2 * 2 = n := by omega
      have h2a : ((n / 2 : ℕ) : ℚ) * 2 = (n : ℚ) := by exact_mod_cast hN
      have hval : ((n / 2 : ℕ) : ℚ) / ((n - 1 : ℕ) : ℚ) * 2 - 1
          = 1 / ((n - 1 : ℕ) : ℚ) := by
        rw [div_mul_eq_mul_div, h2a, eq_div_iff hne, sub_mul,
          div_mul_cancel₀ _ hne, hdc]
        ring
      have h4q : (4 : ℚ) ≤ (n : ℚ) := by exact_mod_cast h4n
      rw [hval, abs_of_pos (one_div_pos.mpr hdpos),
        div_lt_div_iff hdpos (by norm_num : (0 : ℚ) < 2), hdc]
      linarith
    · obtain ⟨k, hk⟩ := ho
      have hN : n / 2 * 2 = n - 1 := by omega
      have h2a : ((n / 2 : ℕ) : ℚ) * 2 = ((n - 1 : ℕ) : ℚ) := by exact_mod_cast hN
      have hval : ((n / 2 : ℕ) : ℚ) / ((n - 1 : ℕ) : ℚ) * 2 - 1 = 0 := by
        rw [div_mul_eq_mul_div, h2a, div_self hne]
        ring
      rw [hval]
      norm_num
  unfold sphericalPre qdiv
  rw [hd, if_neg hne]
  simp only [Option.some_bind]
  set X : ℚ := ((n / 2 : ℕ) : ℚ) / ((n - 1 : ℕ) : ℚ) * 2 - 1 with hX
  have hfx : fabs X < 1 / 2 := by rw [fabs_eq_abs]; exact hxabs
  have hy : 0 < 1 - fabs X - fabs X := by linarith
  rw [if_neg (by linarith : ¬(1 - fabs X - fabs X < 0))]
  exact ⟨(X, 1 - fabs X - fabs X, X), rfl, hy⟩

/-- C2 counterexample: at `grid_size = 2` every Spherical grid cell maps to
the south pole `(0, -1, 0)`, so the grid does NOT cover both hemispheres —
the claim fails at the explicit input `grid_size = 2`. -/
theorem c2_counterexample_grid2 :
    ¬ ((∃ x, x < 2 ∧ ∃ y, y < 2 ∧ ∃ v,
          normal_from_grid (x, y) GridMode.Spherical 2 = some v ∧ 0 < v.2.1) ∧
       (∃ x, x < 2 ∧ ∃ y, y < 2 ∧ ∃ v,
          normal_from_grid (x, y) GridMode.Spherical 2 = some v ∧ v.2.1 < 0)) := by
  rintro ⟨⟨x, hx, y, hy, v, hv, hpos⟩, -⟩
  have hpre : sphericalPre x y 2 = some (0, -1, 0) := by
    interval_cases x <;> interval_cases y <;>
      norm_num [sphericalPre, qdiv, u32sub1, fsignum, fabs]
  simp only [normal_from_grid, hpre, Option.some_bind] at hv
  have hrv : ratVec ((0 : ℚ), -1, 0) = ((0 : ℝ), -1, 0) := by
    norm_num [ratVec]
  rw [hrv, vnormalize_south] at hv
  cases hv
  norm_num at hpos

/-- C2 (amended): for every `3 ≤ grid_size < 2^32`, the Spherical grid
covers both hemispheres: some cell's direction has `y > 0` (the middle cell
`(n/2, n/2)`) and some cell's direction has `y < 0` (the corner `(0, 0)`).
At `grid_size = 2` this fails (see the counterexample). -/
theorem c2_both_hemispheres (n : ℕ) (h3 : 3 ≤ n) (h2 : n < 4294967296) :
    (∃ x, x < n ∧ ∃ y, y < n ∧ ∃ v,
        normal_from_grid (x, y) GridMode.Spherical n = some v ∧ 0 < v.2.1) ∧
    (∃ x, x < n ∧ ∃ y, y < n ∧ ∃ v,
        normal_from_grid (x, y) GridMode.Spherical n = some v ∧ v.2.1 < 0) := by
  constructor
  · refine ⟨n / 2, by omega, n / 2, by omega, ?_⟩
    obtain ⟨⟨a, b, c⟩, hpre, hb⟩ := sphericalPre_mid h3 h2
    simp only [normal_from_grid, hpre, Option.some_bind]
    obtain ⟨w, hw, hwy⟩ :=
      vnormalize_pos_y (a : ℝ) (b : ℝ) (c : ℝ) (by exact_mod_cast hb)
    exact ⟨w, by simpa [ratVec] using hw, hwy⟩
  · refine ⟨0, by omega, 0, by omega, ?_⟩
    have hpre := sphericalPre_corner (n := n) (by omega) h2
    simp only [normal_from_grid, hpre, Option.some_bind]
    have hrv : ratVec ((0 : ℚ), -1, 0) = ((0 : ℝ), -1, 0) := by
      norm_num [ratVec]
    rw [hrv, vnormalize_south]
    exact ⟨(0, -1, 0), rfl, by norm_num⟩

/-- Witness for the amended C2 at `grid_size = 3`. -/
theorem c2_both_hemispheres_witness :
    (∃ x, x < 3 ∧ ∃ y, y < 3 ∧ ∃ v,
        normal_from_grid (x, y) GridMode.Spherical 3 = some v ∧ 0 < v.2.1) ∧
    (∃ x, x < 3 ∧ ∃ y, y < 3 ∧ ∃ v,
        normal_from_grid (x, y) GridMode.Spherical 3 = some v ∧ v.2.1 < 0) :=
  c2_both_hemispheres 3 (by norm_num) (by norm_num)

end BevyImposter

namespace BevyImposter

/-- A CPU-side image as used by the asset codec: `Rg32Uint` texels, one
`(r, g)` pair of `u32` channels per pixel, row-major.  (`pack_asset` reads
`image.data` as a `&[u32]` slice; entry `(y*width + x)*2` is channel `r` of
pixel `(x, y)`.) -/
structure Img where
  width : ℕ
  height : ℕ
  data : List (ℕ × ℕ)
deriving DecidableEq, Repr

/-- `data[(y * width + x) * 2] != 0` from `pack_asset`
(`src/asset_loader.rs`): whether the first channel of pixel `(x, y)` is
non-zero.  Out-of-range reads (a Rust panic) are modelled as the default
pixel `(0, 0)`; claims provide in-bounds hypotheses. -/
def pixUsed (width : ℕ) (data : List (ℕ × ℕ)) (x y : ℕ) : Bool :=
  (data.getD (y * width + x) (0, 0)).1 != 0

/-- `used_x[px]` after the scanning loops of `pack_asset`: some tile has a
non-zero first channel in pixel column `px`. -/
def usedCol (grid ppt width : ℕ) (data : List (ℕ × ℕ)) (px : ℕ) : Bool :=
  (List.range grid).any fun gx =>
    (List.range grid).any fun gy =>
      (List.range ppt).any fun py =>
        pixUsed width data (gx * ppt + px) (gy * ppt + py)

/-- `used_y[py]` after the scanning loops of `pack_asset`. -/
def usedRow (grid ppt width : ℕ) (data : List (ℕ × ℕ)) (py : ℕ) : Bool :=
  (List.range grid).any fun gx =>
    (List.range grid).any fun gy =>
      (List.range ppt).any fun px =>
        pixUsed width data (gx * ppt + px) (gy * ppt + py)

/-- The row-slice copy loops of `pack_asset`, expressed positionally: the
target pixel at flat index `i` (image of width `xc * grid`, height
`yc * grid`) is read from source tile `(tx / xc, ty / yc)` at in-tile
position `(xs + tx % xc, ys + ty % yc)`.  Every target position is written
exactly once by the Rust loops, so the positional form is equivalent. -/
def packCopy (grid ppt xs ys xc yc width : ℕ) (data : List (ℕ × ℕ)) :
    List (ℕ × ℕ) :=
  (List.range (yc * grid * (xc * grid))).map fun i =>
    data.getD
      ((i / (xc * grid) / yc * ppt + ys + i / (xc * grid) % yc) * width
        + (i % (xc * grid) / xc * ppt + xs + i % (xc * grid) % xc)) (0, 0)

/-- `pack_asset` from `src/asset_loader.rs`.  The `std::process::exit(1)`
branch (taken when `total_ratio == 0.0`, i.e. when `x_count * y_count = 0`)
is modelled as `none`. -/
def pack_asset (grid : ℕ) (img : Img) : Option (Img × (ℕ × ℕ) × (ℕ × ℕ)) :=
  let width := img.width
  let ppt := width / grid
  let xs := ((List.range ppt).find? (usedCol grid ppt width img.data)).getD 0
  let xe := ((List.range ppt).reverse.find? (usedCol grid ppt width img.data)).getD 0
  let ys := ((List.range ppt).find? (usedRow grid ppt width img.data)).getD 0
  let ye := ((List.range ppt).reverse.find? (usedRow grid ppt width img.data)).getD 0
  let xc := xe - xs + 1
  let yc := ye - ys + 1
  if xc * yc = 0 then none
  else
    some (⟨xc * grid, yc * grid, packCopy grid ppt xs ys xc yc width img.data⟩,
      (xs, ys), (xc, yc))

end BevyImposter

namespace BevyImposter

/-- An image in which every pixel's first channel is zero ("nothing used"
by the trim scan, the input of claim C6). -/
def c6Image : Img := ⟨2, 2, [(0, 5), (0, 0), (0, 0), (0, 0)]⟩

/-- C6 counterexample: an image with no used pixel position does NOT abort
`pack_asset` — the `unwrap_or((0, &true))` defaults give `x_count =
y_count = 1`, `total_ratio = (1/ppt)^2 ≠ 0`, and a 1×1-per-tile packed
image is returned.  The claimed fatal process abort does not happen. -/
theorem c6_counterexample_no_abort :
    (∀ p ∈ c6Image.data, p.1 = 0) ∧
    pack_asset 1 c6Image = some (⟨1, 1, [(0, 5)]⟩, (0, 0), (1, 1)) := by
  decide

/-- Whenever every pixel's first channel is zero, `pixUsed` is false. -/
theorem pixUsed_false_of_all_zero {width : ℕ} {data : List (ℕ × ℕ)}
    (hzero : ∀ p ∈ data, p.1 = 0) (x y : ℕ) :
    pixUsed width data x y = false := by
  unfold pixUsed
  rcases lt_or_ge (y * width + x) data.length with h | h
  · rw [List.getD_eq_getElem _ _ h]
    have := hzero _ (List.getElem_mem h)
    simp [this]
  · rw [List.getD_eq_default _ _ h]
    rfl

/-- C6 (amended): on an input whose pixels all have zero first channel,
`pack_asset` does not abort: it returns a packed result with offset
`(0, 0)` and packed tile size `(1, 1)` (a 1×1 crop per tile).  The
`std::process::exit(1)` branch is not taken. -/
theorem c6_all_unused_packs_1x1 (grid : ℕ) (img : Img) (hg : 1 ≤ grid)
    (hzero : ∀ p ∈ img.data, p.1 = 0) :
    ∃ img2, pack_asset grid img = some (img2, (0, 0), (1, 1)) := by
  have hcol : ∀ px, usedCol grid (img.width / grid) img.width img.data px = false := by
    intro px
    unfold usedCol
    simp [pixUsed_false_of_all_zero hzero]
  have hrow : ∀ py, usedRow grid (img.width / grid) img.width img.data py = false := by
    intro py
    unfold usedRow
    simp [pixUsed_false_of_all_zero hzero]
  have hfc : (List.range (img.width / grid)).find?
      (usedCol grid (img.width / grid) img.width img.data) = none := by
    rw [List.find?_eq_none]
    intro x _
    simp [hcol]
  have hfc2 : (List.range (img.width / grid)).reverse.find?
      (usedCol grid (img.width / grid) img.width img.data) = none := by
    rw [List.find?_eq_none]
    intro x _
    simp [hcol]
  have hfr : (List.range (img.width / grid)).find?
      (usedRow grid (img.width / grid) img.width img.data) = none := by
    rw [List.find?_eq_none]
    intro x _
    simp [hrow]
  have hfr2 : (List.range (img.width / grid)).reverse.find?
      (usedRow grid (img.width / grid) img.width img.data) = none := by
    rw [List.find?_eq_none]
    intro x _
    simp [hrow]
  refine ⟨⟨1 * grid, 1 * grid,
    packCopy grid (img.width / grid) 0 0 1 1 img.width img.data⟩, ?_⟩
  simp only [pack_asset, hfc, hfc2, hfr, hfr2, Option.getD_none]
  norm_num

/-- Witness for the amended C6 on a concrete all-unused image. -/
theorem c6_all_unused_packs_1x1_witness :
    ∃ img2, pack_asset 1 (⟨1, 1, [(0, 3)]⟩ : Img) = some (img2, (0, 0), (1, 1)) :=
  c6_all_unused_packs_1x1 1 ⟨1, 1, [(0, 3)]⟩ (by norm_num) (by decide)

end BevyImposter

namespace BevyImposter

/-- `iter().find` over `0..k` returns index `0` when the predicate holds
there. -/
theorem find?_range_first {p : ℕ → Bool} {k : ℕ} (hk : 1 ≤ k)
    (h0 : p 0 = true) : (List.range k).find? p = some 0 := by
  obtain ⟨m, rfl⟩ : ∃ m, k = m + 1 := ⟨k - 1, by omega⟩
  rw [List.range_succ_eq_map]
  exact List.find?_cons_of_pos _ h0

/-- `iter().rev().find` over `0..k` returns index `k - 1` when the
predicate holds there. -/
theorem find?_range_rev_last {p : ℕ → Bool} {k : ℕ} (hk : 1 ≤ k)
    (hlast : p (k - 1) = true) :
    (List.range k).reverse.find? p = some (k - 1) := by
  obtain ⟨m, rfl⟩ : ∃ m, k = m + 1 := ⟨k - 1, by omega⟩
  rw [List.range_succ, List.reverse_append]
  simp only [List.reverse_cons, List.reverse_nil, List.nil_append,
    List.singleton_append]
  have hm : m + 1 - 1 = m := by omega
  rw [hm] at hlast
  rw [List.find?_cons_of_pos _ hlast, hm]

/-- Copying with zero offsets and full tile size is the identity. -/
theorem packCopy_tight (grid ppt : ℕ) (data : List (ℕ × ℕ))
    (hlen : data.length = grid * ppt * (grid * ppt)) :
    packCopy grid ppt 0 0 ppt ppt (grid * ppt) data = data := by
  unfold packCopy
  apply List.ext_getElem
  · simp [hlen]
    ring
  · intro i h1 h2
    simp only [List.getElem_map, List.getElem_range]
    have e1 : i / (ppt * grid) / ppt * ppt + 0 + i / (ppt * grid) % ppt
        = i / (ppt * grid) := by
      rw [add_zero, mul_comm]
      exact Nat.div_add_mod _ _
    have e2 : i % (ppt * grid) / ppt * ppt + 0 + i % (ppt * grid) % ppt
        = i % (ppt * grid) := by
      rw [add_zero, mul_comm]
      exact Nat.div_add_mod _ _
    have hww : grid * ppt = ppt * grid := by ring
    have e3 : i / (ppt * grid) * (ppt * grid) + i % (ppt * grid) = i := by
      rw [mul_comm]
      exact Nat.div_add_mod i _
    rw [e1, e2, hww, e3]
    exact List.getD_eq_getElem _ _ h2

/-- C7: packing an already-tight image (its used region spans the whole
tile: columns `0` and `ppt - 1` and rows `0` and `ppt - 1` are all used) is
the identity: offset `(0, 0)`, packed size equal to the input tile size,
and pixel data unchanged. -/
theorem c7_pack_idempotent (grid ppt : ℕ) (d : List (ℕ × ℕ))
    (hg : 1 ≤ grid) (hppt : 1 ≤ ppt)
    (hlen : d.length = grid * ppt * (grid * ppt))
    (hc0 : usedCol grid ppt (grid * ppt) d 0 = true)
    (hc1 : usedCol grid ppt (grid * ppt) d (ppt - 1) = true)
    (hr0 : usedRow grid ppt (grid * ppt) d 0 = true)
    (hr1 : usedRow grid ppt (grid * ppt) d (ppt - 1) = true) :
    pack_asset grid ⟨grid * ppt, grid * ppt, d⟩
      = some (⟨grid * ppt, grid * ppt, d⟩, (0, 0), (ppt, ppt)) := by
  have hdiv : grid * ppt / grid = ppt := Nat.mul_div_cancel_left ppt hg
  simp only [pack_asset, hdiv]
  rw [find?_range_first hppt hc0, find?_range_rev_last hppt hc1,
    find?_range_first hppt hr0, find?_range_rev_last hppt hr1]
  simp only [Option.getD_some]
  have hxc : ppt - 1 - 0 + 1 = ppt := by omega
  rw [hxc]
  rw [if_neg (Nat.mul_ne_zero (by omega) (by omega))]
  rw [packCopy_tight grid ppt d hlen]
  have h1 : ppt * grid = grid * ppt := by ring
  rw [h1]

/-- Witness for C7 on a fully-used 2×2 image. -/
theorem c7_pack_idempotent_witness :
    pack_asset 1 (⟨1 * 2, 1 * 2, [(1, 0), (2, 0), (3, 0), (4, 0)]⟩ : Img)
      = some (⟨1 * 2, 1 * 2, [(1, 0), (2, 0), (3, 0), (4, 0)]⟩,
        (0, 0), (2, 2)) :=
  c7_pack_idempotent 1 2 [(1, 0), (2, 0), (3, 0), (4, 0)]
    (by norm_num) (by norm_num) (by norm_num)
    (by decide) (by decide) (by decide) (by decide)

end BevyImposter

namespace BevyImposter

/-- Fuel-based upward search for the least `m ≥ start` with `n ≤ m * m`
(structural recursion so that the kernel can evaluate it). -/
def ceilSqrtFrom (n : ℕ) : ℕ → ℕ → ℕ
  | m, 0 => m
  | m, fuel + 1 => if n ≤ m * m then m else ceilSqrtFrom n (m + 1) fuel

/-- `(n as f32).sqrt().ceil() as u32`: the least `m` with `n ≤ m²`
(exact for the value ranges in use; `f32` rounding could diverge only for
palettes of several million entries). -/
def ceilSqrt (n : ℕ) : ℕ := ceilSqrtFrom n 0 n

/-- `ceilSqrtFrom` returns `target` when `target` is the least admissible
value at or above the start and within fuel reach. -/
theorem ceilSqrtFrom_eq (n : ℕ) (fuel m target : ℕ)
    (hm : m ≤ target) (htf : target ≤ m + fuel)
    (htarget : n ≤ target * target)
    (hmin : ∀ j, m ≤ j → j < target → ¬ n ≤ j * j) :
    ceilSqrtFrom n m fuel = target := by
  induction fuel generalizing m with
  | zero =>
    have : m = target := by omega
    simp [ceilSqrtFrom, this]
  | succ f ih =>
    rw [ceilSqrtFrom]
    by_cases h : n ≤ m * m
    · rw [if_pos h]
      rcases eq_or_lt_of_le hm with rfl | hlt
      · rfl
      · exact absurd h (hmin m le_rfl hlt)
    · rw [if_neg h]
      refine ih (m + 1) ?_ (by omega) ?_
      · rcases eq_or_lt_of_le hm with rfl | hlt
        · exact absurd htarget h
        · omega
      · intro j hj hjt
        exact hmin j (by omega) hjt

/-- `ceilSqrt n = m` exactly when `(m-1)² < n ≤ m²`. -/
theorem ceilSqrt_eq {n m : ℕ} (h1 : (m - 1) * (m - 1) < n)
    (h2 : n ≤ m * m) : ceilSqrt n = m := by
  refine ceilSqrtFrom_eq n n 0 m (by omega) ?_ h2 ?_
  · rcases Nat.lt_or_ge m 2 with hm | hm
    · interval_cases m <;> omega
    · have h3 : m - 1 ≤ (m - 1) * (m - 1) :=
        Nat.le_mul_of_pos_left _ (by omega)
      omega
  · intro j _ hjm
    have : j * j ≤ (m - 1) * (m - 1) := Nat.mul_le_mul (by omega) (by omega)
    omega

/-- The two defining bounds of `ceilSqrt` for positive input. -/
theorem ceilSqrt_spec (n : ℕ) (hn : 1 ≤ n) :
    (ceilSqrt n - 1) * (ceilSqrt n - 1) < n ∧
      n ≤ ceilSqrt n * ceilSqrt n ∧ 1 ≤ ceilSqrt n := by
  have hex : ∃ m, n ≤ m * m := ⟨n, Nat.le_mul_of_pos_left n hn⟩
  have h2 : n ≤ Nat.find hex * Nat.find hex := Nat.find_spec hex
  have hpos : 1 ≤ Nat.find hex := by
    rcases Nat.eq_zero_or_pos (Nat.find hex) with h0 | h0
    · rw [h0] at h2; omega
    · exact h0
  have h1 : (Nat.find hex - 1) * (Nat.find hex - 1) < n := by
    have := Nat.find_min hex (m := Nat.find hex - 1) (by omega)
    omega
  rw [ceilSqrt_eq h1 h2]
  exact ⟨h1, h2, hpos⟩

/-- `(a as f32 / b as f32).ceil() as u32` for naturals: ceiling division. -/
def cdiv (a b : ℕ) : ℕ := (a + b - 1) / b

/-- `u16::to_le_bytes`. -/
def le2 (n : ℕ) : List ℕ := [n % 256, n / 256 % 256]

/-- `u32::to_le_bytes`. -/
def le4 (n : ℕ) : List ℕ :=
  [n % 256, n / 256 % 256, n / 65536 % 256, n / 16777216 % 256]

/-- Read a little-endian byte string as a natural number. -/
def rdLE (bs : List ℕ) : ℕ := bs.foldr (fun b acc => b + 256 * acc) 0

/-- The 8 bytes of one `Rg32Uint` texel (`[u8; 8]` chunk): both `u32`
channels in little-endian order. -/
def pixelBytes (p : ℕ × ℕ) : List ℕ := le4 p.1 ++ le4 p.2

/-- The raw byte stream of an `Rg32Uint` pixel list (`image.data`). -/
def imgBytes (data : List (ℕ × ℕ)) : List ℕ := data.flatMap pixelBytes

/-- The `BTreeSet<[u8; 8]>` iteration key: the 8 texel bytes read as a
big-endian number, so that numeric order on keys equals the byte-wise
lexicographic order of the Rust `[u8; 8]` `Ord`. -/
def pixKey (p : ℕ × ℕ) : ℕ :=
  rdLE (le4 p.1).reverse * 4294967296 + rdLE (le4 p.2).reverse

/-- Ordered-set insertion with the `BTreeSet` key order: insert `p` before
the first strictly larger element, drop it if already present. -/
def palInsert (p : ℕ × ℕ) : List (ℕ × ℕ) → List (ℕ × ℕ)
  | [] => [p]
  | q :: t =>
    if pixKey p < pixKey q then p :: q :: t
    else if p = q then q :: t
    else q :: palInsert p t

/-- The palette built by `write_asset`: the distinct pixel values of the
image, enumerated in `BTreeSet` (byte-lexicographic) order. -/
def paletteList (data : List (ℕ × ℕ)) : List (ℕ × ℕ) :=
  data.foldl (fun acc p => palInsert p acc) []

/-- The `settings.txt` record of a `.boimp` container:
`<grid_size> <scale> <mode> <base_tile_size> <ox> <oy> <sx> <sy>`.
Numeric fields are kept typed: Rust's decimal `Display`/`parse` for `u32`
and `f32` round-trips these values exactly. -/
structure BoimpSettings where
  grid_size : ℕ
  scale : ℚ
  modeStr : String
  tile_size : ℕ
  packed_offset : ℕ × ℕ
  packed_size : ℕ × ℕ
deriving DecidableEq, Repr

/-- A `.boimp` container (a stored zip archive).  PNG encoding of the
RGBA8-reinterpreted payloads is lossless, so each entry is modelled by the
byte string it decodes to. -/
structure BoimpFile where
  pixelsEntry : Option (List ℕ)
  indicesEntry : Option (List ℕ)
  textureEntry : Option (List ℕ)
  settings : BoimpSettings
deriving DecidableEq, Repr

/-- The mode string written by `write_asset` (note `"Horizontal"` is
capitalized in the source, unlike the other two). -/
def modeName : GridMode → String
  | .Spherical => "spherical"
  | .Hemispherical => "hemispherical"
  | .Horizontal => "Horizontal"

/-- The mode-string match of `ImposterLoader::load`; an unknown string is
an `anyhow::bail!` error, modelled as `none`. -/
def modeOfStr (s : String) : Option GridMode :=
  if s = "spherical" then some .Spherical
  else if s = "hemispherical" then some .Hemispherical
  else if s = "Horizontal" then some .Horizontal
  else none

/-- One row of pixels of a row-major image of width `w`. -/
def rowSlice (data : List (ℕ × ℕ)) (w y : ℕ) : List (ℕ × ℕ) :=
  (data.drop (y * w)).take w

/-- The index-image byte stream written by `write_asset`: per-pixel palette
indices as `u16` (when the palette rectangle fits 16 bits) or `u32` little
endian; in the `u16` case an image of odd width gets two zero bytes
appended to every row (the source inserts them in place at each row end,
which yields the same byte string). -/
def writeIdxBytes (pal data : List (ℕ × ℕ)) (w h : ℕ) (useU16 : Bool) :
    List ℕ :=
  if useU16 then
    if w % 2 = 1 then
      (List.range h).flatMap fun y =>
        ((rowSlice data w y).flatMap fun p => le2 (pal.indexOf p)) ++ [0, 0]
    else data.flatMap fun p => le2 (pal.indexOf p)
  else data.flatMap fun p => le4 (pal.indexOf p)

/-- `write_asset` from `src/asset_loader.rs`.  Filesystem and zip plumbing
are dropped; the result is the container content.  `none` models the
process abort inside `pack_asset`. -/
def write_asset (scale : ℚ) (grid_size tile_size : ℕ) (mode : GridMode)
    (img : Img) (pack index : Bool) : Option BoimpFile :=
  (if pack then pack_asset grid_size img
   else some (img, (0, 0), (tile_size, tile_size))).bind fun pr =>
    let image := pr.1
    let pal := paletteList image.data
    let pixels_x := ceilSqrt pal.length
    let pixels_y := cdiv pal.length pixels_x
    let unique_pixel_count := pixels_x * pixels_y
    let use_u16 := decide (unique_pixel_count < 65536)
    let base_pixel_count := image.width * image.height
    let total_index_size_bytes :=
      unique_pixel_count * 8 + base_pixel_count * (if use_u16 then 2 else 4)
    let base_size := base_pixel_count * 8
    let wroteIndexed := index && decide (total_index_size_bytes < base_size)
    some
      { pixelsEntry :=
          if wroteIndexed then
            some (imgBytes pal
              ++ List.replicate (pixels_x * pixels_y * 8 - pal.length * 8) 0)
          else none
        indicesEntry :=
          if wroteIndexed then
            some (writeIdxBytes pal image.data image.width image.height use_u16)
          else none
        textureEntry := if wroteIndexed then none else some (imgBytes image.data)
        settings :=
          ⟨grid_size, scale, modeName mode, tile_size, pr.2.1, pr.2.2⟩ }

end BevyImposter

namespace BevyImposter

/-- `VERTEX_BILLBOARD_FLAG` from `src/render.rs`. -/
def VERTEX_BILLBOARD_FLAG : ℕ := 4

/-- `USE_SOURCE_UV_Y_FLAG` from `src/render.rs`. -/
def USE_SOURCE_UV_Y_FLAG : ℕ := 8

/-- `RENDER_MULTISAMPLE_FLAG` from `src/render.rs`. -/
def RENDER_MULTISAMPLE_FLAG : ℕ := 16

/-- `INDEXED_FLAG` from `src/render.rs`. -/
def INDEXED_FLAG : ℕ := 32

/-- A loaded GPU image: the dimensions passed to `Image::new` plus the
decoded payload bytes. -/
structure RawImage where
  width : ℕ
  height : ℕ
  bytes : List ℕ
deriving DecidableEq, Repr

/-- The parts of the loaded `Imposter` asset relevant to the claims (the
`ImposterData` uniform fields plus the two images and the vram estimate;
`alpha`/`alpha_mode`, which only repackage loader settings, are omitted). -/
structure LoadedImposter where
  scale : ℚ
  grid_size : ℕ
  flags : ℕ
  base_tile_size : ℕ
  packed_tile_offset : ℕ × ℕ
  packed_tile_size : ℕ × ℕ
  pixels : RawImage
  indices : RawImage
  vram_bytes : ℕ
deriving DecidableEq, Repr

/-- `ImposterLoaderSettings` fields that reach the flags word. -/
structure LoaderSettings where
  billboard : Bool
  multisample : Bool
  useSourceUvY : Bool
deriving DecidableEq, Repr

/-- The flags word assembled by `ImposterLoader::load` (before the
indexed-storage bit). -/
def mkLoadFlags (ls : LoaderSettings) (mode : GridMode) : ℕ :=
  (if ls.billboard then VERTEX_BILLBOARD_FLAG else 0)
    + (if ls.multisample then RENDER_MULTISAMPLE_FLAG else 0)
    + (if ls.useSourceUvY then USE_SOURCE_UV_Y_FLAG else 0)
    + mode.as_flags

/-- `ImposterLoader::load` from `src/asset_loader.rs` applied to a parsed
container.  `none` models any load error (missing entry, unknown mode
string).  The loader re-derives the palette image dimensions from the byte
length of `pixels.png` (`pixels_x = ceil(sqrt(len/8))`,
`pixels_y = ceil(len/8/pixels_x)`) and re-derives `use_u16` from them. -/
def load_asset (ls : LoaderSettings) (f : BoimpFile) : Option LoadedImposter :=
  (modeOfStr f.settings.modeStr).bind fun mode =>
  match f.pixelsEntry with
  | some pb =>
    f.indicesEntry.bind fun ib =>
      let N := pb.length / 8
      let pixels_x := ceilSqrt N
      let pixels_y := cdiv N pixels_x
      let use_u16 := decide (pixels_x * pixels_y < 65536)
      let sx := f.settings.packed_size.1 * f.settings.grid_size
      let sy := f.settings.packed_size.2 * f.settings.grid_size
      let width := if use_u16 then (sx + 1) / 2 else sx
      some
        { scale := f.settings.scale
          grid_size := f.settings.grid_size
          flags := mkLoadFlags ls mode + INDEXED_FLAG
          base_tile_size := f.settings.tile_size
          packed_tile_offset := f.settings.packed_offset
          packed_tile_size := f.settings.packed_size
          pixels := ⟨pixels_x, pixels_y, pb⟩
          indices := ⟨width, sy, ib⟩
          vram_bytes := pixels_x * pixels_y * 8 + width * sy * 4 }
  | none =>
    f.textureEntry.bind fun tb =>
      let sx := f.settings.packed_size.1 * f.settings.grid_size
      let sy := f.settings.packed_size.2 * f.settings.grid_size
      some
        { scale := f.settings.scale
          grid_size := f.settings.grid_size
          flags := mkLoadFlags ls mode
          base_tile_size := f.settings.tile_size
          packed_tile_offset := f.settings.packed_offset
          packed_tile_size := f.settings.packed_size
          pixels := ⟨sx, sy, tb⟩
          indices := ⟨1, 1, [0, 0, 0, 0]⟩
          vram_bytes := sx * sy * 8 }

/-- Modelled from the spec: the palette resolution performed by the
sampling shader (which is not under `src/`): for each packed-image pixel
`(x, y)` read its palette index from the indices image (`u16` or `u32`
little-endian, with one padding `u16` at the end of every row when the
`u16` layout has odd width) and emit the 8 texel bytes at that palette
position.  Everything else in the round trip is the `src/` writer/loader
pair. -/
def decodeIndexed (pal ib : List ℕ) (w h : ℕ) (useU16 : Bool) : List ℕ :=
  (List.range (h * w)).flatMap fun i =>
    let index :=
      if useU16 then rdLE ((ib.drop ((i / w * (w + w % 2) + i % w) * 2)).take 2)
      else rdLE ((ib.drop ((i / w * w + i % w) * 4)).take 4)
    (pal.drop (index * 8)).take 8

/-- The pixel byte stream an asset consumer reconstructs from a loaded
imposter: the raw payload directly, or the palette resolution of the index
image for indexed storage. -/
def decodedPixelBytes (li : LoadedImposter) : List ℕ :=
  if li.flags &&& INDEXED_FLAG = 0 then li.pixels.bytes
  else
    decodeIndexed li.pixels.bytes li.indices.bytes
      (li.packed_tile_size.1 * li.grid_size)
      (li.packed_tile_size.2 * li.grid_size)
      (decide (li.pixels.width * li.pixels.height < 65536))

end BevyImposter

namespace BevyImposter

/-- Membership in an ordered-set insertion. -/
theorem mem_palInsert {a p : ℕ × ℕ} {l : List (ℕ × ℕ)} :
    a ∈ palInsert p l ↔ a = p ∨ a ∈ l := by
  induction l with
  | nil => simp [palInsert]
  | cons q t ih =>
    by_cases h1 : pixKey p < pixKey q
    · rw [palInsert, if_pos h1]
      simp [List.mem_cons]
    · by_cases h2 : p = q
      · rw [palInsert, if_neg h1, if_pos h2]
        subst h2
        simp [List.mem_cons]
      · rw [palInsert, if_neg h1, if_neg h2]
        simp only [List.mem_cons, ih]
        tauto

/-- Ordered-set insertion preserves sortedness by the `BTreeSet` key. -/
theorem palInsert_sorted {p : ℕ × ℕ} {l : List (ℕ × ℕ)}
    (hs : l.Pairwise fun a b => pixKey a ≤ pixKey b) :
    (palInsert p l).Pairwise fun a b => pixKey a ≤ pixKey b := by
  induction l with
  | nil => simp [palInsert]
  | cons q t ih =>
    rw [List.pairwise_cons] at hs
    obtain ⟨hq, ht⟩ := hs
    by_cases h1 : pixKey p < pixKey q
    · rw [palInsert, if_pos h1]
      refine List.Pairwise.cons ?_ (List.Pairwise.cons hq ht)
      intro b hb
      rcases List.mem_cons.mp hb with rfl | hb
      · omega
      · have := hq b hb
        omega
    · by_cases h2 : p = q
      · rw [palInsert, if_neg h1, if_pos h2]
        exact List.Pairwise.cons hq ht
      · rw [palInsert, if_neg h1, if_neg h2]
        refine List.Pairwise.cons ?_ (ih ht)
        intro b hb
        rcases mem_palInsert.mp hb with rfl | hb
        · omega
        · exact hq b hb

/-- Ordered-set insertion preserves distinctness. -/
theorem palInsert_nodup {p : ℕ × ℕ} {l : List (ℕ × ℕ)}
    (hs : l.Pairwise fun a b => pixKey a ≤ pixKey b) (hn : l.Nodup) :
    (palInsert p l).Nodup := by
  induction l with
  | nil => simp [palInsert]
  | cons q t ih =>
    rw [List.pairwise_cons] at hs
    obtain ⟨hq, ht⟩ := hs
    rw [List.nodup_cons] at hn
    obtain ⟨hqt, hnt⟩ := hn
    by_cases h1 : pixKey p < pixKey q
    · rw [palInsert, if_pos h1]
      refine List.Nodup.cons ?_ (List.Nodup.cons hqt hnt)
      intro hmem
      rcases List.mem_cons.mp hmem with rfl | hmem
      · omega
      · have := hq p hmem
        omega
    · by_cases h2 : p = q
      · rw [palInsert, if_neg h1, if_pos h2]
        exact List.Nodup.cons hqt hnt
      · rw [palInsert, if_neg h1, if_neg h2]
        refine List.Nodup.cons ?_ (ih ht hnt)
        intro hmem
        rcases mem_palInsert.mp hmem with rfl | hmem
        · exact h2 rfl
        · exact hqt hmem

/-- Folding set insertions: membership. -/
theorem mem_foldl_palInsert (data : List (ℕ × ℕ)) :
    ∀ (acc : List (ℕ × ℕ)) (a : ℕ × ℕ),
      a ∈ data.foldl (fun acc p => palInsert p acc) acc ↔ a ∈ acc ∨ a ∈ data := by
  induction data with
  | nil => simp
  | cons p t ih =>
    intro acc a
    rw [List.foldl_cons, ih, mem_palInsert]
    simp [List.mem_cons]
    tauto

/-- Folding set insertions: sortedness and distinctness. -/
theorem sorted_nodup_foldl_palInsert (data : List (ℕ × ℕ)) :
    ∀ (acc : List (ℕ × ℕ)),
      (acc.Pairwise fun a b => pixKey a ≤ pixKey b) → acc.Nodup →
      ((data.foldl (fun acc p => palInsert p acc) acc).Pairwise
          fun a b => pixKey a ≤ pixKey b) ∧
        (data.foldl (fun acc p => palInsert p acc) acc).Nodup := by
  induction data with
  | nil => exact fun acc hs hn => ⟨hs, hn⟩
  | cons p t ih =>
    intro acc hs hn
    rw [List.foldl_cons]
    exact ih _ (palInsert_sorted hs) (palInsert_nodup hs hn)

/-- The palette contains exactly the pixel values of the image. -/
theorem mem_paletteList {data : List (ℕ × ℕ)} {a : ℕ × ℕ} :
    a ∈ paletteList data ↔ a ∈ data := by
  rw [paletteList, mem_foldl_palInsert]
  simp

/-- The palette is duplicate-free. -/
theorem nodup_paletteList (data : List (ℕ × ℕ)) : (paletteList data).Nodup :=
  (sorted_nodup_foldl_palInsert data [] (by simp) (by simp)).2

end BevyImposter

namespace BevyImposter

/-- Ceiling division dominates: `k ≤ p * ⌈k/p⌉`. -/
theorem le_mul_cdiv (k p : ℕ) (hp : 0 < p) : k ≤ p * cdiv k p := by
  unfold cdiv
  have h := Nat.div_add_mod (k + p - 1) p
  have hlt : (k + p - 1) % p < p := Nat.mod_lt _ hp
  set pq := p * ((k + p - 1) / p) with hpq
  omega

/-- Ceiling division stays below the square root bound:
`k ≤ p² → ⌈k/p⌉ ≤ p`. -/
theorem cdiv_le_of_le_sq {k p : ℕ} (hp : 0 < p) (h : k ≤ p * p) :
    cdiv k p ≤ p := by
  unfold cdiv
  rw [Nat.div_le_iff_le_mul_add_pred hp]
  set s := p * p
  omega

/-- Exact ceiling division: `⌈(p*q)/p⌉ = q`. -/
theorem cdiv_mul_self {p : ℕ} (q : ℕ) (hp : 0 < p) : cdiv (p * q) p = q := by
  unfold cdiv
  rw [Nat.add_sub_assoc hp, add_comm, Nat.add_mul_div_left _ _ hp,
    Nat.div_eq_of_lt (by omega)]
  omega

/-- The palette rectangle is stable under the loader's re-derivation:
with `px = ceilSqrt K` and `py = ⌈K/px⌉`, re-deriving the dimensions from
the total texel count `px * py` gives back `px` and `py`, and the rectangle
holds at least `K` texels. -/
theorem rect_stable {K : ℕ} (hK : 1 ≤ K) :
    ceilSqrt (ceilSqrt K * cdiv K (ceilSqrt K)) = ceilSqrt K ∧
    cdiv (ceilSqrt K * cdiv K (ceilSqrt K)) (ceilSqrt K) = cdiv K (ceilSqrt K) ∧
    K ≤ ceilSqrt K * cdiv K (ceilSqrt K) := by
  obtain ⟨h1, h2, hpos⟩ := ceilSqrt_spec K hK
  set px := ceilSqrt K with hpx
  set py := cdiv K px with hpy
  have hKle : K ≤ px * py := le_mul_cdiv K px hpos
  have hpyle : py ≤ px := cdiv_le_of_le_sq hpos h2
  have hN2 : px * py ≤ px * px := Nat.mul_le_mul_left px hpyle
  refine ⟨ceilSqrt_eq (lt_of_lt_of_le h1 hKle) hN2, cdiv_mul_self py hpos, hKle⟩

end BevyImposter

namespace BevyImposter

/-- `(imgBytes l).length = 8 * l.length`. -/
theorem length_imgBytes (l : List (ℕ × ℕ)) :
    (imgBytes l).length = l.length * 8 := by
  induction l with
  | nil => rfl
  | cons p t ih =>
    simp only [imgBytes, List.flatMap_cons, List.length_append] at *
    simp [pixelBytes, le4, ih]
    omega

/-- The size comparison as claim C4 states it, with the palette size `K`
itself. -/
def claimIndexCondition (K n : ℕ) : Prop :=
  K * 8 + n * (if K < 65536 then 2 else 4) < n * 8

/-- The size comparison the code actually performs: the palette texel count
is the padded rectangle `ceilSqrt K * ⌈K / ceilSqrt K⌉`, used both in the
byte total and in the 16-bit test. -/
def amendedIndexCondition (K n : ℕ) : Prop :=
  ceilSqrt K * cdiv K (ceilSqrt K) * 8
      + n * (if ceilSqrt K * cdiv K (ceilSqrt K) < 65536 then 2 else 4)
    < n * 8

/-- The 5×1 image with 3 distinct pixel values used to refute C4. -/
def c4Img : Img := ⟨5, 1, [(1, 1), (2, 2), (3, 3), (1, 1), (1, 1)]⟩

/-- C4 counterexample: for the 5×1 image with `K = 3` distinct pixels, the
claim's inequality `K·8 + n·2 < n·8` holds (`34 < 40`), yet `write_asset`
with indexing enabled stores the raw image (`texture.png`), because the
code compares with the padded rectangle `ceil(√3)·ceil(3/2) = 4`:
`4·8 + 5·2 = 42 ≥ 40`. -/
theorem c4_counterexample_rect_vs_palette :
    claimIndexCondition (paletteList c4Img.data).length
        (c4Img.width * c4Img.height) ∧
    (write_asset 1 1 5 GridMode.Spherical c4Img false true).map
        (fun f => (f.pixelsEntry.isSome, f.indicesEntry.isSome,
          f.textureEntry.isSome))
      = some (false, false, true) := by
  constructor
  · show claimIndexCondition (paletteList c4Img.data).length
      (c4Img.width * c4Img.height)
    rw [show (paletteList c4Img.data).length = 3 from by decide]
    unfold claimIndexCondition
    decide
  · decide

end BevyImposter

namespace BevyImposter

/-- C4 (amended): with indexing enabled, `write_asset` stores the palette
plus index images, instead of the raw image, if and only if
`rect·8 + pixel_count·(2 or 4) < pixel_count·8`, where
`rect = ceilSqrt K · ⌈K / ceilSqrt K⌉` is the padded palette-rectangle
texel count (not the palette size `K` itself), 2-byte indices being used
exactly when `rect` (not `K`) is below `2^16`. -/
theorem c4_index_decision (scale : ℚ) (g t : ℕ) (mode : GridMode)
    (img : Img) (pck : Bool) (f : BoimpFile)
    (hw : write_asset scale g t mode img pck true = some f) :
    ∃ pimg off psz,
      (if pck then pack_asset g img else some (img, (0, 0), (t, t)))
          = some (pimg, off, psz) ∧
      ((f.pixelsEntry.isSome ∧ f.indicesEntry.isSome ∧ f.textureEntry = none)
          ↔ amendedIndexCondition (paletteList pimg.data).length
              (pimg.width * pimg.height)) ∧
      ((f.textureEntry.isSome ∧ f.pixelsEntry = none ∧ f.indicesEntry = none)
          ↔ ¬ amendedIndexCondition (paletteList pimg.data).length
              (pimg.width * pimg.height)) := by
  unfold write_asset at hw
  rcases hpr : (if pck then pack_asset g img else some (img, (0, 0), (t, t)))
    with _ | pr
  · rw [hpr] at hw
    simp at hw
  · rw [hpr] at hw
    rcases pr with ⟨pimg, off, psz⟩
    simp only [Option.some_bind, Option.some.injEq] at hw
    refine ⟨pimg, off, psz, rfl, ?_⟩
    subst hw
    simp only [Bool.true_and, decide_eq_true_eq]
    unfold amendedIndexCondition
    simp only [mul_ite]
    by_cases hc : (ceilSqrt (paletteList pimg.data).length *
          cdiv (paletteList pimg.data).length
            (ceilSqrt (paletteList pimg.data).length) * 8 +
        if ceilSqrt (paletteList pimg.data).length *
              cdiv (paletteList pimg.data).length
                (ceilSqrt (paletteList pimg.data).length) < 65536
          then pimg.width * pimg.height * 2
          else pimg.width * pimg.height * 4) <
      pimg.width * pimg.height * 8
    · simp [hc]
    · simp [hc]

/-- Witness for the amended C4 at a concrete indexed write. -/
theorem c4_index_decision_witness :
    ∃ f, write_asset 1 1 6 GridMode.Spherical
        ⟨6, 1, [(7, 7), (8, 8), (9, 9), (7, 7), (7, 7), (7, 7)]⟩ false true
        = some f ∧
      ∃ pimg off psz,
        (if false then pack_asset 1 ⟨6, 1, [(7, 7), (8, 8), (9, 9), (7, 7), (7, 7), (7, 7)]⟩
            else some (⟨6, 1, [(7, 7), (8, 8), (9, 9), (7, 7), (7, 7), (7, 7)]⟩, (0, 0), (6, 6)))
            = some (pimg, off, psz) ∧
        ((f.pixelsEntry.isSome ∧ f.indicesEntry.isSome ∧ f.textureEntry = none)
            ↔ amendedIndexCondition (paletteList pimg.data).length
                (pimg.width * pimg.height)) ∧
        ((f.textureEntry.isSome ∧ f.pixelsEntry = none ∧ f.indicesEntry = none)
            ↔ ¬ amendedIndexCondition (paletteList pimg.data).length
                (pimg.width * pimg.height)) :=
  ⟨_, rfl, c4_index_decision 1 1 6 GridMode.Spherical
    ⟨6, 1, [(7, 7), (8, 8), (9, 9), (7, 7), (7, 7), (7, 7)]⟩ false _ rfl⟩

end BevyImposter

namespace BevyImposter

/-- `indexOf` of a member is in bounds (for the `Prod` `BEq` instance). -/
theorem indexOf_lt_of_mem {α : Type} [BEq α] [LawfulBEq α] {a : α}
    {l : List α} (h : a ∈ l) : l.indexOf a < l.length := by
  induction l with
  | nil => simp at h
  | cons b t ih =>
    rw [List.indexOf_cons]
    by_cases hab : b == a
    · simp [hab]
    · rw [List.mem_cons] at h
      rcases h with rfl | h
      · simp at hab
      · simp only [hab, cond_false, List.length_cons]
        exact Nat.succ_lt_succ (ih h)

/-- `l[l.indexOf a]? = some a` for a member `a`. -/
theorem getElem?_indexOf_self {α : Type} [BEq α] [LawfulBEq α] {a : α}
    {l : List α} (h : a ∈ l) : l[l.indexOf a]? = some a := by
  induction l with
  | nil => simp at h
  | cons b t ih =>
    rw [List.indexOf_cons]
    by_cases hab : b == a
    · simp [eq_of_beq hab]
    · rw [List.mem_cons] at h
      rcases h with rfl | h
      · simp at hab
      · simp only [hab, cond_false]
        simpa using ih h

/-- `l[l.indexOf a] = a` for a member `a`. -/
theorem getElem_indexOf_self {α : Type} [BEq α] [LawfulBEq α] {a : α}
    {l : List α} (h : a ∈ l) (hlt : l.indexOf a < l.length) :
    l[l.indexOf a] = a := by
  have h1 : l[l.indexOf a]? = some a := getElem?_indexOf_self h
  rw [List.getElem?_eq_getElem hlt] at h1
  exact Option.some.inj h1

end BevyImposter

namespace BevyImposter

/-- The 6×1 image with 3 distinct pixel values (including the zero pixel)
used to refute C5. -/
def c5Img : Img := ⟨6, 1, [(0, 0), (1, 1), (2, 2), (0, 0), (0, 0), (0, 0)]⟩

/-- C5 counterexample: for a 6×1 image with exactly `K = 3` distinct pixel
values, the stored palette image does NOT contain exactly `K` entries: it
is zero-padded to the `ceil(√3)·ceil(3/2) = 4`-texel rectangle (32 bytes),
and the image's zero pixel value occupies BOTH texel 0 and the padding
texel 3 — it does not appear exactly once. -/
theorem c5_counterexample_padded_palette :
    (paletteList c5Img.data).length = 3 ∧ (0, 0) ∈ c5Img.data ∧
    (write_asset 1 1 6 GridMode.Spherical c5Img false true).map
        (fun f => f.pixelsEntry.map List.length) = some (some 32) ∧
    (write_asset 1 1 6 GridMode.Spherical c5Img false true).map
        (fun f => f.pixelsEntry.map (fun pb =>
          decide (pb.take 8 = pixelBytes (0, 0)) &&
            decide ((pb.drop 24).take 8 = pixelBytes (0, 0))))
      = some (some true) := by
  decide

/-- C5 (amended): whenever `write_asset` takes the indexed branch, the
stored palette image consists of the `K` distinct pixel values of the
(packed) image — each appearing exactly once, in `BTreeSet` byte order —
followed by zero-padding texels up to the `ceilSqrt K × ⌈K/ceilSqrt K⌉`
rectangle; and the palette index of every image pixel is strictly below
`K`. -/
theorem c5_indexed_palette (scale : ℚ) (g t : ℕ) (mode : GridMode)
    (img : Img) (pck : Bool) (f : BoimpFile) (pb : List ℕ)
    (hw : write_asset scale g t mode img pck true = some f)
    (hpb : f.pixelsEntry = some pb) :
    ∃ pimg off psz,
      (if pck then pack_asset g img else some (img, (0, 0), (t, t)))
          = some (pimg, off, psz) ∧
      pb = imgBytes (paletteList pimg.data)
          ++ List.replicate (pb.length - (paletteList pimg.data).length * 8) 0 ∧
      (paletteList pimg.data).Nodup ∧
      (∀ p, p ∈ paletteList pimg.data ↔ p ∈ pimg.data) ∧
      (∀ p ∈ pimg.data,
        (paletteList pimg.data).indexOf p < (paletteList pimg.data).length) := by
  unfold write_asset at hw
  rcases hpr : (if pck then pack_asset g img else some (img, (0, 0), (t, t)))
    with _ | pr
  · rw [hpr] at hw
    simp at hw
  · rw [hpr] at hw
    rcases pr with ⟨pimg, off, psz⟩
    simp only [Option.some_bind, Option.some.injEq] at hw
    refine ⟨pimg, off, psz, rfl, ?_⟩
    subst hw
    simp only at hpb
    rcases ite_eq_iff.mp hpb with ⟨hB, hX⟩ | ⟨hB, hX⟩
    · rw [Option.some.injEq] at hX
      subst hX
      refine ⟨?_, nodup_paletteList _, fun p => mem_paletteList, ?_⟩
      · congr 1
        rw [List.length_append, length_imgBytes, List.length_replicate]
        congr 1
        omega
      · intro p hp
        exact indexOf_lt_of_mem (mem_paletteList.mpr hp)
    · exact absurd hX (by simp)

/-- Witness for the amended C5 on the concrete 6×1 indexed image. -/
theorem c5_indexed_palette_witness :
    ∃ f pb,
      write_asset 1 1 6 GridMode.Spherical c5Img false true = some f ∧
      f.pixelsEntry = some pb ∧
      ∃ pimg off psz,
        (if false then pack_asset 1 c5Img else some (c5Img, (0, 0), (6, 6)))
            = some (pimg, off, psz) ∧
        pb = imgBytes (paletteList pimg.data)
            ++ List.replicate (pb.length - (paletteList pimg.data).length * 8) 0 ∧
        (paletteList pimg.data).Nodup ∧
        (∀ p, p ∈ paletteList pimg.data ↔ p ∈ pimg.data) ∧
        (∀ p ∈ pimg.data,
          (paletteList pimg.data).indexOf p < (paletteList pimg.data).length) :=
  ⟨_, _, rfl, rfl,
    c5_indexed_palette 1 1 6 GridMode.Spherical c5Img false _ _ rfl rfl⟩

end BevyImposter

namespace BevyImposter

/-- The extracted bake-camera state consumed by `ImposterBakeNode::run`
(`src/bake.rs`): grid/tile geometry, the subview list (one per grid cell),
the readiness-gate expected count, and the per-frame limits.  `hasCallback`
abstracts `camera.callback.is_some()`. -/
structure BakeCam where
  gridSize : ℕ
  tileSize : ℕ
  multisample : ℕ
  subviews : List (ℕ × ℕ)
  expectedCount : ℕ
  waitForRender : Bool
  maxTilesPerFrame : ℕ
  hasCallback : Bool
deriving DecidableEq, Repr

/-- Messages the bake node emits on completion: the `BakeState` channel
sends (`RunningCallback`/`Finished`) and the dispatch of the asynchronous
GPU→CPU readback task (the `ImpostersBaked` sender). -/
inductive BakeSignal
  | runningCallback
  | finished
  | readback
deriving DecidableEq, Repr

/-- The subview list built by `extract_imposter_cameras` (`src/bake.rs`):
row-major, `for y in 0..grid_size { for x in 0..grid_size }`. -/
def subviewsFor (gridSize : ℕ) : List (ℕ × ℕ) :=
  (List.range gridSize).flatMap fun y =>
    (List.range gridSize).map fun x => (x, y)

/-- Length of a `flatMap` whose pieces all have length `c`. -/
theorem length_flatMap_const {α β : Type} (f : α → List β) (c : ℕ)
    (l : List α) (hc : ∀ a ∈ l, (f a).length = c) :
    (l.flatMap f).length = l.length * c := by
  induction l with
  | nil => simp
  | cons a t ih =>
    rw [List.flatMap_cons, List.length_append, hc a (by simp),
      ih (fun b hb => hc b (by simp [hb]))]
    simp [List.length_cons]
    ring

/-- Extraction produces exactly `grid_size²` subviews. -/
theorem length_subviewsFor (g : ℕ) : (subviewsFor g).length = g * g := by
  unfold subviewsFor
  rw [length_flatMap_const _ g _ (fun a _ => by simp), List.length_range]

/-- The per-frame tile count after one `ImposterBakeNode::run` command
generation, from the stored `part_baked` counter `r0` and the readiness
gate's actual draw count for tile 0 (`ImposterActualRenderCount`).
`multisample == 1` renders tile 0 as a readiness probe (advancing by one
only when ready or not waiting) and then up to `max_tiles_per_frame`
further tiles; `multisample > 1` runs the per-tile loop with an early
`break` before the first increment when tile 0 under-renders and
`wait_for_render` is set. -/
def renderedAfter (cam : BakeCam) (r0 actual : ℕ) : ℕ :=
  if cam.multisample = 1 then
    let r1 :=
      if r0 = 0 then
        if actual ≠ cam.expectedCount ∧ cam.waitForRender = true then 0 else 1
      else r0
    if r1 > 0 then r1 + min cam.maxTilesPerFrame (cam.subviews.length - r1)
    else r1
  else
    if r0 = 0 ∧ actual ≠ cam.expectedCount ∧ cam.waitForRender = true then r0
    else r0 + min cam.maxTilesPerFrame (cam.subviews.length - r0)

/-- The completion messages sent at the end of the frame: exactly when the
rendered count reaches `grid_size²`, either `RunningCallback` plus the
asynchronous readback dispatch (when a callback is set) or `Finished`. -/
def frameSignals (cam : BakeCam) (rendered : ℕ) : List BakeSignal :=
  if rendered = cam.gridSize * cam.gridSize then
    if cam.hasCallback then [.runningCallback, .readback] else [.finished]
  else []

/-- One frame of `ImposterBakeNode::run` for one session: the new rendered
count and the emitted completion signals.  The Rust function returns
`Ok(())` on every path — readiness stalls are only logged at debug level,
never surfaced as errors — so the model has no error output. -/
def runFrame (cam : BakeCam) (r0 actual : ℕ) : ℕ × List BakeSignal :=
  (renderedAfter cam r0 actual, frameSignals cam (renderedAfter cam r0 actual))

/-- The `part_baked` entry stored for the next frame: `insert(view,
rendered)` followed by `remove(&view)` on completion, whose absence reads
back as `0` (`unwrap_or_default`). -/
def partBakedAfter (cam : BakeCam) (rendered : ℕ) : ℕ :=
  if rendered = cam.gridSize * cam.gridSize then 0 else rendered

/-- C8: in any frame where tile 0 is still pending (stored count 0), the
actual rendered-draw count is below the expected visible count, and
`wait_for_render` is set, the node does not advance past tile 0: the
rendered count stays 0, no completion signal is sent (the condition is
only a debug log, never an error — `run` returns `Ok` on every path), and
the stored counter remains 0 so the next frame retries tile 0. -/
theorem c8_wait_retries (cam : BakeCam) (actual : ℕ)
    (hg : 1 ≤ cam.gridSize)
    (hlt : actual < cam.expectedCount)
    (hwait : cam.waitForRender = true) :
    runFrame cam 0 actual = (0, []) ∧ partBakedAfter cam 0 = 0 := by
  have hne : actual ≠ cam.expectedCount := Nat.ne_of_lt hlt
  have hgg : cam.gridSize * cam.gridSize ≠ 0 :=
    Nat.mul_ne_zero (by omega) (by omega)
  by_cases hms : cam.multisample = 1 <;>
    simp [runFrame, renderedAfter, frameSignals, partBakedAfter, hms, hne,
      hwait, hgg, Ne.symm hgg]

/-- Witness for C8 with a concrete under-rendered session. -/
theorem c8_wait_retries_witness :
    runFrame ⟨2, 64, 1, subviewsFor 2, 5, true, 100, false⟩ 0 3 = (0, []) ∧
    partBakedAfter ⟨2, 64, 1, subviewsFor 2, 5, true, 100, false⟩ 0 = 0 :=
  c8_wait_retries ⟨2, 64, 1, subviewsFor 2, 5, true, 100, false⟩ 3
    (by norm_num) (by norm_num) rfl

/-- C9: within a session (stored count `r0 ≤ grid_size²`, subview list of
length `grid_size²` as extraction builds it), one frame never decreases
the rendered count, never takes it beyond `grid_size²`, and emits a
completion signal exactly when the count reaches `grid_size²` — `Finished`
without a callback, `RunningCallback` followed by the asynchronous
readback dispatch with one.  (On completion the `part_baked` entry is
removed, which ends the session unless it is continuous.) -/
theorem c9_monotone_bounded_completion (cam : BakeCam) (r0 actual : ℕ)
    (hg : 1 ≤ cam.gridSize)
    (hsub : cam.subviews.length = cam.gridSize * cam.gridSize)
    (hr0 : r0 ≤ cam.gridSize * cam.gridSize) :
    r0 ≤ (runFrame cam r0 actual).1 ∧
    (runFrame cam r0 actual).1 ≤ cam.gridSize * cam.gridSize ∧
    ((runFrame cam r0 actual).2 ≠ [] ↔
      (runFrame cam r0 actual).1 = cam.gridSize * cam.gridSize) ∧
    (runFrame cam r0 actual).2 =
      (if (runFrame cam r0 actual).1 = cam.gridSize * cam.gridSize then
        (if cam.hasCallback then [BakeSignal.runningCallback, BakeSignal.readback]
         else [BakeSignal.finished])
       else []) := by
  have hgg : 1 ≤ cam.gridSize * cam.gridSize :=
    Nat.one_le_iff_ne_zero.mpr (Nat.mul_ne_zero (by omega) (by omega))
  refine ⟨?_, ?_, ?_, rfl⟩
  · simp only [runFrame, renderedAfter]
    split_ifs <;> omega
  · simp only [runFrame, renderedAfter, hsub]
    split_ifs <;> omega
  · simp only [runFrame, frameSignals]
    split_ifs <;> simp_all

/-- Witness for C9 on a concrete completing frame. -/
theorem c9_monotone_bounded_completion_witness :
    0 ≤ (runFrame ⟨1, 64, 1, subviewsFor 1, 2, true, 10, true⟩ 0 2).1 ∧
    (runFrame ⟨1, 64, 1, subviewsFor 1, 2, true, 10, true⟩ 0 2).1 ≤ 1 * 1 ∧
    ((runFrame ⟨1, 64, 1, subviewsFor 1, 2, true, 10, true⟩ 0 2).2 ≠ [] ↔
      (runFrame ⟨1, 64, 1, subviewsFor 1, 2, true, 10, true⟩ 0 2).1 = 1 * 1) ∧
    (runFrame ⟨1, 64, 1, subviewsFor 1, 2, true, 10, true⟩ 0 2).2 =
      (if (runFrame ⟨1, 64, 1, subviewsFor 1, 2, true, 10, true⟩ 0 2).1 = 1 * 1
        then (if (⟨1, 64, 1, subviewsFor 1, 2, true, 10, true⟩ : BakeCam).hasCallback
          then [BakeSignal.runningCallback, BakeSignal.readback]
          else [BakeSignal.finished])
       else []) :=
  c9_monotone_bounded_completion ⟨1, 64, 1, subviewsFor 1, 2, true, 10, true⟩ 0 2
    (by norm_num) (by decide) (by norm_num)

end BevyImposter

namespace BevyImposter

/-- Slicing a uniform-chunk `flatMap` at chunk `i` recovers chunk `i`. -/
theorem flatMap_slice {α β : Type} (f : α → List β) (c : ℕ)
    (hc : ∀ a, (f a).length = c) :
    ∀ (l : List α) (i : ℕ) (hi : i < l.length),
      ((l.flatMap f).drop (i * c)).take c = f l[i] := by
  intro l
  induction l with
  | nil => intro i hi; simp at hi
  | cons a tl ih =>
    intro i hi
    cases i with
    | zero =>
      simp only [List.flatMap_cons, Nat.zero_mul, List.drop_zero,
        List.getElem_cons_zero]
      rw [← hc a]
      exact List.take_left _ _
    | succ j =>
      simp only [List.flatMap_cons, List.getElem_cons_succ]
      have h1 : (j + 1) * c = (f a).length + j * c := by rw [hc a]; ring
      rw [h1, List.drop_append]
      exact ih j (by simpa using Nat.lt_of_succ_lt_succ (by simpa using hi))

/-- Slicing inside the left part of an append. -/
theorem take_drop_append_left {α : Type} {A B : List α} {k c : ℕ}
    (h : k + c ≤ A.length) :
    ((A ++ B).drop k).take c = (A.drop k).take c := by
  rw [List.drop_append_eq_append_drop]
  rw [List.take_append_of_le_length]
  rw [List.length_drop]
  omega

/-- `rdLE` inverts `le2` below `2^16`. -/
theorem rdLE_le2 {n : ℕ} (h : n < 65536) : rdLE (le2 n) = n := by
  simp only [rdLE, le2, List.foldr]
  omega

/-- `rdLE` inverts `le4` below `2^32`. -/
theorem rdLE_le4 {n : ℕ} (h : n < 4294967296) : rdLE (le4 n) = n := by
  simp only [rdLE, le4, List.foldr]
  omega

/-- A row slice of a well-formed row-major image has length `w`. -/
theorem length_rowSlice {data : List (ℕ × ℕ)} {w h y : ℕ}
    (hlen : data.length = w * h) (hy : y < h) :
    (rowSlice data w y).length = w := by
  unfold rowSlice
  rw [List.length_take, List.length_drop]
  have h1 : (y + 1) * w ≤ h * w := Nat.mul_le_mul_right w (by omega)
  have h2 : y * w + w = (y + 1) * w := by ring
  have h3 : w * h = h * w := by ring
  omega

/-- The `x`-th pixel of row `y` is pixel `y * w + x` of the image. -/
theorem getElem_rowSlice {data : List (ℕ × ℕ)} {w h y x : ℕ}
    (hlen : data.length = w * h) (hy : y < h) (hx : x < w)
    (h1 : x < (rowSlice data w y).length)
    (h2 : y * w + x < data.length) :
    (rowSlice data w y)[x] = data[y * w + x] := by
  unfold rowSlice at h1 ⊢
  rw [List.getElem_take, List.getElem_drop]

/-- `modeOfStr` inverts `modeName`. -/
theorem modeOfStr_modeName (mode : GridMode) :
    modeOfStr (modeName mode) = some mode := by
  cases mode <;> rfl

/-- The loader's flag word without the indexed bit: the low two bits hold
the mode, bit 5 is clear. -/
theorem mkLoadFlags_raw (ls : LoaderSettings) (mode : GridMode) :
    GridMode.from_flags (mkLoadFlags ls mode) = some mode ∧
      mkLoadFlags ls mode &&& INDEXED_FLAG = 0 := by
  rcases ls with ⟨b1, b2, b3⟩
  cases b1 <;> cases b2 <;> cases b3 <;> cases mode <;> exact ⟨rfl, rfl⟩

/-- The loader's flag word with the indexed bit: the low two bits hold the
mode, bit 5 is set. -/
theorem mkLoadFlags_indexed (ls : LoaderSettings) (mode : GridMode) :
    GridMode.from_flags (mkLoadFlags ls mode + INDEXED_FLAG) = some mode ∧
      (mkLoadFlags ls mode + INDEXED_FLAG) &&& INDEXED_FLAG = INDEXED_FLAG := by
  rcases ls with ⟨b1, b2, b3⟩
  cases b1 <;> cases b2 <;> cases b3 <;> cases mode <;> exact ⟨rfl, rfl⟩

end BevyImposter

namespace BevyImposter

/-- `flatMap` congruence over the members. -/
theorem flatMap_congr_mem {α β : Type} {l : List α} {f g : α → List β}
    (h : ∀ a ∈ l, f a = g a) : l.flatMap f = l.flatMap g := by
  induction l with
  | nil => rfl
  | cons a t ih =>
    rw [List.flatMap_cons, List.flatMap_cons, h a (by simp),
      ih fun b hb => h b (by simp [hb])]

/-- Reindexing a `flatMap` over the positions of the list. -/
theorem flatMap_eq_range_flatMap {α β : Type} (f : α → List β) (l : List α)
    (d : α) :
    l.flatMap f = (List.range l.length).flatMap fun i => f (l.getD i d) := by
  induction l with
  | nil => rfl
  | cons a t ih =>
    rw [List.flatMap_cons, List.length_cons, List.range_succ_eq_map,
      List.flatMap_cons, List.flatMap_map]
    simp only [List.getD_cons_zero, List.getD_cons_succ]
    rw [ih]

/-- Dropping whole chunks of a uniform-chunk `flatMap`. -/
theorem flatMap_drop {α β : Type} (f : α → List β) (c : ℕ)
    (hc : ∀ a, (f a).length = c) :
    ∀ (l : List α) (i : ℕ),
      (l.flatMap f).drop (i * c) = (l.drop i).flatMap f := by
  intro l
  induction l with
  | nil => simp
  | cons a t ih =>
    intro i
    cases i with
    | zero => simp
    | succ j =>
      rw [List.flatMap_cons, show (j + 1) * c = (f a).length + j * c by
        rw [hc a]; ring, List.drop_append, List.drop_succ_cons, ih j]

/-- Slicing the palette byte image at texel `idx` gives that texel's
bytes. -/
theorem paletteSlice (pal : List (ℕ × ℕ)) (pad : ℕ) {idx : ℕ}
    (h : idx < pal.length) :
    ((imgBytes pal ++ List.replicate pad 0).drop (idx * 8)).take 8
      = pixelBytes pal[idx] := by
  rw [take_drop_append_left (by rw [length_imgBytes]; omega)]
  exact flatMap_slice pixelBytes 8 (fun p => rfl) pal idx h

end BevyImposter

namespace BevyImposter

/-- `palInsert` grows the list by at most one element. -/
theorem length_palInsert_le (p : ℕ × ℕ) (l : List (ℕ × ℕ)) :
    (palInsert p l).length ≤ l.length + 1 := by
  induction l with
  | nil => simp [palInsert]
  | cons q t ih =>
    by_cases h1 : pixKey p < pixKey q
    · rw [palInsert, if_pos h1]
      simp
    · by_cases h2 : p = q
      · rw [palInsert, if_neg h1, if_pos h2]
        simp
      · rw [palInsert, if_neg h1, if_neg h2]
        simpa using ih

/-- The palette is at most as long as the image data. -/
theorem length_paletteList_le (data : List (ℕ × ℕ)) :
    (paletteList data).length ≤ data.length := by
  have key : ∀ (l acc : List (ℕ × ℕ)),
      (l.foldl (fun acc p => palInsert p acc) acc).length
        ≤ acc.length + l.length := by
    intro l
    induction l with
    | nil => simp
    | cons p t ih =>
      intro acc
      rw [List.foldl_cons]
      calc (t.foldl (fun acc p => palInsert p acc) (palInsert p acc)).length
          ≤ (palInsert p acc).length + t.length := ih _
        _ ≤ acc.length + 1 + t.length := by
            have := length_palInsert_le p acc
            omega
        _ = acc.length + (t.length + 1) := by omega
  simpa using key data []

/-- Uniform-chunk drop, with the length condition only on members. -/
theorem flatMap_drop_mem {α β : Type} (f : α → List β) (c : ℕ) :
    ∀ (l : List α), (∀ a ∈ l, (f a).length = c) → ∀ i : ℕ,
      (l.flatMap f).drop (i * c) = (l.drop i).flatMap f := by
  intro l
  induction l with
  | nil => simp
  | cons a t ih =>
    intro hc i
    cases i with
    | zero => simp
    | succ j =>
      rw [List.flatMap_cons, show (j + 1) * c = (f a).length + j * c by
        rw [hc a (by simp)]; ring, List.drop_append, List.drop_succ_cons,
        ih (fun b hb => hc b (by simp [hb])) j]

end BevyImposter

namespace BevyImposter

theorem decodeIndexed_roundtrip (data : List (ℕ × ℕ)) (W H pad : ℕ)
    (hlen : data.length = W * H)
    (hn32 : data.length < 4294967296)
    (useU16 : Bool)
    (hu : useU16 = true → (paletteList data).length < 65536) :
    decodeIndexed (imgBytes (paletteList data) ++ List.replicate pad 0)
        (writeIdxBytes (paletteList data) data W H useU16) W H useU16
      = imgBytes data := by
  unfold decodeIndexed
  have hRHS : imgBytes data
      = (List.range (H * W)).flatMap fun i => pixelBytes (data.getD i (0, 0)) := by
    unfold imgBytes
    rw [flatMap_eq_range_flatMap pixelBytes data (0, 0), hlen, Nat.mul_comm W H]
  rw [hRHS]
  apply flatMap_congr_mem
  intro i hi
  rw [List.mem_range] at hi
  have hW : 0 < W := by
    rcases Nat.eq_zero_or_pos W with h | h
    · subst h; simp at hi
    · exact h
  have hcomm : H * W = W * H := by ring
  have hidata : i < data.length := by omega
  have hy : i / W < H := (Nat.div_lt_iff_lt_mul hW).mpr hi
  have hx : i % W < W := Nat.mod_lt _ hW
  have hyx : i / W * W + i % W = i := by
    rw [mul_comm]; exact Nat.div_add_mod i W
  have hmem : data[i] ∈ data := List.getElem_mem _
  have hmempal : data[i] ∈ paletteList data := mem_paletteList.mpr hmem
  have hidx : (paletteList data).indexOf data[i] < (paletteList data).length :=
    indexOf_lt_of_mem hmempal
  have hgetD : data.getD i (0, 0) = data[i] := List.getD_eq_getElem _ _ hidata
  have hIDX :
      (if useU16 = true then
        rdLE (((writeIdxBytes (paletteList data) data W H useU16).drop
          ((i / W * (W + W % 2) + i % W) * 2)).take 2)
      else
        rdLE (((writeIdxBytes (paletteList data) data W H useU16).drop
          ((i / W * W + i % W) * 4)).take 4))
      = (paletteList data).indexOf data[i] := by
    cases useU16 with
    | false =>
      simp only [Bool.false_eq_true, if_false]
      unfold writeIdxBytes
      simp only [Bool.false_eq_true, if_false]
      rw [hyx, flatMap_slice (fun p => le4 ((paletteList data).indexOf p)) 4
        (fun p => rfl) data i hidata]
      exact rdLE_le4 (by
        have := length_paletteList_le data
        omega)
    | true =>
      simp only [if_true]
      unfold writeIdxBytes
      simp only [if_true]
      by_cases hodd : W % 2 = 1
      · rw [if_pos hodd, hodd]
        set pal := paletteList data with hpaldef
        set rowFn : ℕ → List ℕ := fun y =>
          ((rowSlice data W y).flatMap fun p => le2 (pal.indexOf p)) ++ [0, 0]
          with hrowFn
        have hrowlen : ∀ y ∈ List.range H, (rowFn y).length = W * 2 + 2 := by
          intro y hy2
          rw [List.mem_range] at hy2
          rw [hrowFn]
          simp only [List.length_append]
          rw [length_flatMap_const (fun p => le2 (pal.indexOf p)) 2 _
            (fun p _ => rfl), length_rowSlice hlen hy2]
          rfl
        have hpos : (i / W * (W + 1) + i % W) * 2
            = i / W * (W * 2 + 2) + i % W * 2 := by ring
        rw [hpos, ← List.drop_drop]
        rw [flatMap_drop_mem rowFn (W * 2 + 2) _ hrowlen (i / W)]
        have hyr : i / W < (List.range H).length := by simpa using hy
        rw [List.drop_eq_getElem_cons hyr, List.getElem_range]
        rw [List.flatMap_cons]
        rw [take_drop_append_left (by
          rw [hrowlen (i / W) (by simpa using hy)]
          omega)]
        rw [hrowFn]
        rw [take_drop_append_left (by
          rw [length_flatMap_const (fun p => le2 (pal.indexOf p)) 2 _
            (fun p _ => rfl), length_rowSlice hlen hy]
          omega)]
        have hxlen : i % W < (rowSlice data W (i / W)).length := by
          rw [length_rowSlice hlen hy]; exact hx
        have hin : i / W * W + i % W < data.length := by omega
        have hdi : data[i / W * W + i % W] = data[i] := by
          have h1 : data[i / W * W + i % W]? = data[i]? := by rw [hyx]
          rw [List.getElem?_eq_getElem hin, List.getElem?_eq_getElem hidata] at h1
          exact Option.some.inj h1
        rw [flatMap_slice (fun p => le2 (pal.indexOf p)) 2 (fun p => rfl)
          (rowSlice data W (i / W)) (i % W) hxlen]
        rw [getElem_rowSlice hlen hy hx hxlen hin, hdi]
        exact rdLE_le2 (by
          have := hu rfl
          omega)
      · rw [if_neg hodd]
        have h0 : W % 2 = 0 := by omega
        rw [h0]
        have hpos : (i / W * (W + 0) + i % W) * 2 = i * 2 := by
          rw [Nat.add_zero, hyx]
        rw [hpos, flatMap_slice (fun p => le2 ((paletteList data).indexOf p)) 2
          (fun p => rfl) data i hidata]
        exact rdLE_le2 (by
          have := hu rfl
          omega)
  show ((imgBytes (paletteList data) ++ List.replicate pad 0).drop
      ((if useU16 = true then
        rdLE (((writeIdxBytes (paletteList data) data W H useU16).drop
          ((i / W * (W + W % 2) + i % W) * 2)).take 2)
      else
        rdLE (((writeIdxBytes (paletteList data) data W H useU16).drop
          ((i / W * W + i % W) * 4)).take 4)) * 8)).take 8
      = pixelBytes (data.getD i (0, 0))
  rw [hIDX, paletteSlice _ pad hidx, getElem_indexOf_self hmempal hidx, hgetD]

end BevyImposter

namespace BevyImposter

/-- Bound for the `.rev().find` fallback index. -/
theorem find?_range_rev_getD_le {P : ℕ → Bool} {k : ℕ} (hk : 1 ≤ k) :
    ((List.range k).reverse.find? P).getD 0 ≤ k - 1 := by
  cases hf : (List.range k).reverse.find? P with
  | none => simp
  | some v =>
    have hv : v ∈ (List.range k).reverse := List.mem_of_find?_eq_some hf
    rw [List.mem_reverse, List.mem_range] at hv
    simp only [Option.getD_some]
    omega

/-- Shape facts about a `pack_asset` result: dimensions are the packed
tile size times the grid, the data length matches, and the packed tile is
no larger than the original tile. -/
theorem pack_asset_wf {g t : ℕ} {img pimg : Img} {off psz : ℕ × ℕ}
    (hg : 1 ≤ g) (ht : 1 ≤ t)
    (hw : img.width = g * t)
    (hp : pack_asset g img = some (pimg, off, psz)) :
    pimg.width = psz.1 * g ∧ pimg.height = psz.2 * g ∧
    pimg.data.length = pimg.width * pimg.height ∧ psz.1 ≤ t ∧ psz.2 ≤ t := by
  have hppt : img.width / g = t := by rw [hw]; exact Nat.mul_div_cancel_left t hg
  simp only [pack_asset, hppt] at hp
  rcases ite_eq_iff.mp hp with ⟨hc, hx⟩ | ⟨hc, hx⟩
  · exact absurd hx (by simp)
  · rw [Option.some.injEq, Prod.mk.injEq, Prod.mk.injEq] at hx
    obtain ⟨h1, h2, h3⟩ := hx
    subst h1 h2 h3
    have hxe := @find?_range_rev_getD_le (usedCol g t img.width img.data) t ht
    have hye := @find?_range_rev_getD_le (usedRow g t img.width img.data) t ht
    refine ⟨rfl, rfl, ?_, by omega, by omega⟩
    simp only [packCopy, List.length_map, List.length_range]
    ring

/-- C3: writing an asset with `write_asset` (with or without packing, raw
or indexed storage) and loading it back reproduces `grid_size`, `scale`,
`mode`, `base_tile_size` and the packed offset/size exactly, and the
decoded pixel byte stream equals the byte stream of the (packed) input
image.  Hypotheses: the input image is a `grid_size × grid_size` grid of
`tile_size × tile_size` tiles with matching data length, small enough that
palette indices fit `u32`. -/
theorem c3_write_read_roundtrip (scale : ℚ) (g t : ℕ) (mode : GridMode)
    (img : Img) (pck idx : Bool) (ls : LoaderSettings)
    (pimg : Img) (off psz : ℕ × ℕ) (f : BoimpFile)
    (hg : 1 ≤ g) (ht : 1 ≤ t)
    (hw : img.width = g * t) (hh : img.height = img.width)
    (hlen : img.data.length = img.width * img.height)
    (hn32 : img.width * img.height < 4294967296)
    (hpack : (if pck then pack_asset g img else some (img, (0, 0), (t, t)))
        = some (pimg, off, psz))
    (hwrite : write_asset scale g t mode img pck idx = some f) :
    ∃ li, load_asset ls f = some li ∧
      li.grid_size = g ∧ li.scale = scale ∧
      GridMode.from_flags li.flags = some mode ∧
      li.base_tile_size = t ∧
      li.packed_tile_offset = off ∧ li.packed_tile_size = psz ∧
      decodedPixelBytes li = imgBytes pimg.data := by
  have hpw : pimg.width = psz.1 * g ∧ pimg.height = psz.2 * g ∧
      pimg.data.length = pimg.width * pimg.height ∧
      pimg.width * pimg.height < 4294967296 := by
    cases pck with
    | false =>
      simp only [Bool.false_eq_true, if_false, Option.some.injEq,
        Prod.mk.injEq] at hpack
      obtain ⟨h1, _, h3⟩ := hpack
      subst h1 h3
      refine ⟨by rw [hw]; ring, by rw [hh, hw]; ring, hlen, hn32⟩
    | true =>
      rw [if_pos rfl] at hpack
      obtain ⟨h1, h2, h3, h4, h5⟩ := pack_asset_wf hg ht hw hpack
      refine ⟨h1, h2, h3, ?_⟩
      have hb1 : pimg.width ≤ t * g := by
        rw [h1]; exact Nat.mul_le_mul_right g h4
      have hb2 : pimg.height ≤ t * g := by
        rw [h2]; exact Nat.mul_le_mul_right g h5
      have hb3 : pimg.width * pimg.height ≤ (t * g) * (t * g) :=
        Nat.mul_le_mul hb1 hb2
      have hb4 : (t * g) * (t * g) = img.width * img.height := by
        rw [hw, hh, hw]; ring
      omega
  obtain ⟨hpw1, hpw2, hpw3, hpw4⟩ := hpw
  unfold write_asset at hwrite
  rw [hpack] at hwrite
  simp only [Option.some_bind, Option.some.injEq] at hwrite
  cases hcase : (idx && decide (ceilSqrt (paletteList pimg.data).length *
      cdiv (paletteList pimg.data).length
        (ceilSqrt (paletteList pimg.data).length) * 8 +
    pimg.width * pimg.height *
      (if (decide (ceilSqrt (paletteList pimg.data).length *
          cdiv (paletteList pimg.data).length
            (ceilSqrt (paletteList pimg.data).length) < 65536)) = true
        then 2 else 4) <
    pimg.width * pimg.height * 8)) with
  | false =>
    rw [hcase] at hwrite
    simp only [Bool.false_eq_true, if_false] at hwrite
    subst hwrite
    refine ⟨{ scale := scale
              grid_size := g
              flags := mkLoadFlags ls mode
              base_tile_size := t
              packed_tile_offset := off
              packed_tile_size := psz
              pixels := ⟨psz.1 * g, psz.2 * g, imgBytes pimg.data⟩
              indices := ⟨1, 1, [0, 0, 0, 0]⟩
              vram_bytes := psz.1 * g * (psz.2 * g) * 8 }, ?_,
      rfl, rfl, (mkLoadFlags_raw ls mode).1, rfl, rfl, rfl, ?_⟩
    · simp only [load_asset, modeOfStr_modeName, Option.some_bind]
    · simp only [decodedPixelBytes, (mkLoadFlags_raw ls mode).2, if_pos]
  | true =>
    rw [hcase] at hwrite
    simp only [eq_self_iff_true, if_true] at hwrite
    subst hwrite
    rw [Bool.and_eq_true] at hcase
    obtain ⟨hidx, htot⟩ := hcase
    rw [decide_eq_true_eq] at htot
    set pal := paletteList pimg.data with hpaldef
    set K := pal.length with hKdef
    set px := ceilSqrt K with hpxdef
    set py := cdiv K px with hpydef
    have hbpc : 0 < pimg.width * pimg.height := by
      rcases Nat.eq_zero_or_pos (pimg.width * pimg.height) with h0 | h0
      · rw [h0] at htot
        simp only [Nat.zero_mul, Nat.mul_zero, Nat.add_zero] at htot
        omega
      · exact h0
    have hK1 : 1 ≤ K := by
      have hne : pimg.data ≠ [] := by
        intro h
        rw [h] at hpw3
        simp only [List.length_nil] at hpw3
        omega
      obtain ⟨p, hp⟩ := List.exists_mem_of_ne_nil pimg.data hne
      have hmem : p ∈ pal := mem_paletteList.mpr hp
      have := List.ne_nil_of_mem hmem
      rw [hKdef]
      exact List.length_pos.mpr this
    have hcs : ceilSqrt (px * py) = px := by
      rw [hpydef, hpxdef]
      exact (rect_stable hK1).1
    have hcd : cdiv (px * py) px = py := by
      rw [hpydef, hpxdef]
      exact (rect_stable hK1).2.1
    have hKle : K ≤ px * py := by
      rw [hpydef, hpxdef]
      exact (rect_stable hK1).2.2
    have hPBlen : (imgBytes pal ++ List.replicate (px * py * 8 - K * 8) 0).length
        = px * py * 8 := by
      rw [List.length_append, List.length_replicate, length_imgBytes, ← hKdef]
      have h8 : K * 8 ≤ px * py * 8 := Nat.mul_le_mul_right 8 hKle
      omega
    have hN : (imgBytes pal ++ List.replicate (px * py * 8 - K * 8) 0).length / 8
        = px * py := by
      rw [hPBlen]
      exact Nat.mul_div_cancel _ (by norm_num)
    refine ⟨{ scale := scale
              grid_size := g
              flags := mkLoadFlags ls mode + INDEXED_FLAG
              base_tile_size := t
              packed_tile_offset := off
              packed_tile_size := psz
              pixels := ⟨px, py,
                imgBytes pal ++ List.replicate (px * py * 8 - K * 8) 0⟩
              indices := ⟨(if decide (px * py < 65536) = true
                    then (psz.1 * g + 1) / 2 else psz.1 * g), psz.2 * g,
                  writeIdxBytes pal pimg.data pimg.width pimg.height
                    (decide (px * py < 65536))⟩
              vram_bytes := px * py * 8
                + (if decide (px * py < 65536) = true
                    then (psz.1 * g + 1) / 2 else psz.1 * g) * (psz.2 * g) * 4 },
      ?_, rfl, rfl, (mkLoadFlags_indexed ls mode).1, rfl, rfl, rfl, ?_⟩
    · simp only [load_asset, modeOfStr_modeName, Option.some_bind]
      rw [hN, hcs, hcd]
    · have hne : (mkLoadFlags ls mode + INDEXED_FLAG) &&& INDEXED_FLAG ≠ 0 := by
        rw [(mkLoadFlags_indexed ls mode).2]
        simp [INDEXED_FLAG]
      simp only [decodedPixelBytes, if_neg hne]
      rw [← hpw1, ← hpw2]
      have hn32d : pimg.data.length < 4294967296 := by rw [hpw3]; exact hpw4
      exact decodeIndexed_roundtrip pimg.data pimg.width pimg.height
        (px * py * 8 - K * 8) hpw3 hn32d (decide (px * py < 65536))
        (fun h => lt_of_le_of_lt hKle (decide_eq_true_eq.mp h))

/-- Witness: the round trip at a concrete 1-tile asset. -/
theorem c3_write_read_roundtrip_witness :
    ∃ li, load_asset ⟨false, false, false⟩
        { pixelsEntry := none
          indicesEntry := none
          textureEntry := some (imgBytes [(0, 0)])
          settings := ⟨1, 2, "spherical", 1, (0, 0), (1, 1)⟩ } = some li ∧
      li.grid_size = 1 ∧ li.scale = 2 ∧
      GridMode.from_flags li.flags = some GridMode.Spherical ∧
      li.base_tile_size = 1 ∧
      li.packed_tile_offset = (0, 0) ∧ li.packed_tile_size = (1, 1) ∧
      decodedPixelBytes li = imgBytes (⟨1, 1, [(0, 0)]⟩ : Img).data :=
  c3_write_read_roundtrip 2 1 1 GridMode.Spherical ⟨1, 1, [(0, 0)]⟩ false false
    ⟨false, false, false⟩ ⟨1, 1, [(0, 0)]⟩ (0, 0) (1, 1)
    { pixelsEntry := none
      indicesEntry := none
      textureEntry := some (imgBytes [(0, 0)])
      settings := ⟨1, 2, "spherical", 1, (0, 0), (1, 1)⟩ }
    (by decide) (by decide) rfl rfl rfl (by decide) rfl rfl

end BevyImposter
